import Mathlib

/-!
Verification of the `scripts/fix-web-export.py` utility.

The script post-processes a directory of exported HTML files.  Its core is the
single regular-expression substitution performed by `fix_html`: `re.sub`
with the pattern `<script src="([^"]+)" defer>` and the replacement template
`<script type="module" src="\1" defer>`, and a `main` driver that walks a root directory,
rewrites every file whose name ends in `.html`, and reports a count.

The substitution is embedded shallowly over `List Char`.  Because the capture
group `[^"]+` is a greedy run of non-quote characters followed by the literal
`" defer>`, a match at a given position exists exactly when the text starts
with `<script src="`, followed by a nonempty run of non-quote characters whose
first terminating quote is immediately followed by ` defer>`.  `re.sub` scans
left to right, replacing non-overlapping matches and resuming after each
replacement; `reSubFuel` below implements exactly that scan (with a fuel
argument that is always sufficient, so that the function is structurally
recursive and computable by the kernel).
-/

namespace FixWebExport

/-- Characters of the literal part of the pattern before the capture group:
`<script src="`. -/
def scriptSrcLit : List Char := "<script src=\"".toList

/-- Characters of the literal part of the pattern after the capture group:
`" defer>`. -/
def closeLit : List Char := "\" defer>".toList

/-- Characters of the literal part of the replacement template before the
substituted capture: `<script type="module" src="`. -/
def modLit : List Char := "<script type=\"module\" src=\"".toList

/-- nq c holds when c may appear inside the captured URL (the class `[^"]`). -/
def nq (c : Char) : Bool := c != '"'

/-- dropLit p cs removes the literal p from the front of cs, failing when cs
does not start with p. -/
def dropLit : List Char → List Char → Option (List Char)
  | [], cs => some cs
  | _ :: _, [] => none
  | p :: ps, c :: cs => if c = p then dropLit ps cs else none

/-- matchAt cs attempts to match the pattern `<script src="([^"]+)" defer>` at
the very start of cs, returning the captured URL and the text after the match.
The greedy class `[^"]+` runs to the first quote, which must then begin the
literal `" defer>`. -/
def matchAt (cs : List Char) : Option (List Char × List Char) :=
  match dropLit scriptSrcLit cs with
  | none => none
  | some rest =>
    let url := rest.takeWhile nq
    if url = [] then none
    else
      match dropLit closeLit (rest.dropWhile nq) with
      | none => none
      | some rest3 => some (url, rest3)

/-- occ url is the full text of one pattern occurrence with captured URL. -/
def occ (url : List Char) : List Char := scriptSrcLit ++ url ++ closeLit

/-- repl url is the replacement text produced for a match with captured URL. -/
def repl (url : List Char) : List Char := modLit ++ url ++ closeLit

/-- reSubFuel is the left-to-right non-overlapping substitution scan of
`re.sub`: at each position it tries `matchAt`; on a match it emits the
replacement and resumes after the match, otherwise it keeps the character and
moves one position right.  The fuel argument only forces structural recursion;
fuel `cs.length` always suffices. -/
def reSubFuel : Nat → List Char → List Char
  | 0, cs => cs
  | _ + 1, [] => []
  | n + 1, c :: cs =>
    match matchAt (c :: cs) with
    | some (url, rest) => repl url ++ reSubFuel n rest
    | none => c :: reSubFuel n cs

/-- reSub cs is the Python `re.sub` of the fixed pattern over cs. -/
def reSub (cs : List Char) : List Char := reSubFuel cs.length cs

/-- matchCountFuel counts the matches replaced by the same scan as
`reSubFuel`. -/
def matchCountFuel : Nat → List Char → Nat
  | 0, _ => 0
  | _ + 1, [] => 0
  | n + 1, c :: cs =>
    match matchAt (c :: cs) with
    | some (_, rest) => matchCountFuel n rest + 1
    | none => matchCountFuel n cs

/-- matchCount cs is the number of occurrences replaced by `reSub` on cs. -/
def matchCount (cs : List Char) : Nat := matchCountFuel cs.length cs

/-- urlsLtFreeFuel checks, along the same scan as `reSubFuel`, that no
captured URL contains the character `<`. -/
def urlsLtFreeFuel : Nat → List Char → Bool
  | 0, _ => true
  | _ + 1, [] => true
  | n + 1, c :: cs =>
    match matchAt (c :: cs) with
    | some (url, rest) => url.all (fun x => x != '<') && urlsLtFreeFuel n rest
    | none => urlsLtFreeFuel n cs

/-- urlsLtFree cs holds when no URL captured during the substitution scan of
cs contains the character `<`. -/
def urlsLtFree (cs : List Char) : Bool := urlsLtFreeFuel cs.length cs

/-- fix_html is the pure content transform of the Python function `fix_html`:
it applies the substitution and reports whether the result differs from the
input (the condition under which the file is rewritten and `True` returned). -/
def fix_html (content : String) : String × Bool :=
  if String.mk (reSub content.toList) = content then (content, false)
  else (String.mk (reSub content.toList), true)

/-! Basic facts about `dropLit` and `matchAt`. -/

theorem dropLit_some_iff (p : List Char) :
    ∀ cs r : List Char, dropLit p cs = some r ↔ cs = p ++ r := by
  induction p with
  | nil =>
    intro cs r
    simp [dropLit]
  | cons x xs ih =>
    intro cs r
    cases cs with
    | nil => simp [dropLit]
    | cons c cs =>
      by_cases hc : c = x
      · subst hc
        simp [dropLit, ih]
      · simp [dropLit, hc]

theorem mem_takeWhile_nq {cs : List Char} :
    ∀ x ∈ cs.takeWhile nq, x ≠ '"' := by
  intro x hx
  have := List.takeWhile_subset (p := nq) (l := cs)
  have hp : nq x = true := List.mem_takeWhile_imp hx
  simpa [nq] using hp

theorem takeWhile_eq_self_of_nq {u : List Char} (hu : ∀ x ∈ u, x ≠ '"')
    (z : List Char) : (u ++ '"' :: z).takeWhile nq = u := by
  induction u with
  | nil => simp [List.takeWhile, nq]
  | cons c cs ih =>
    have hc : c ≠ '"' := hu c (by simp)
    have hb : (c != '"') = true := by simp [hc]
    have ih' := ih (fun x hx => hu x (by simp [hx]))
    simp [List.takeWhile, nq, hb, ih']

theorem dropWhile_eq_of_nq {u : List Char} (hu : ∀ x ∈ u, x ≠ '"')
    (z : List Char) : (u ++ '"' :: z).dropWhile nq = '"' :: z := by
  induction u with
  | nil => simp [List.dropWhile, nq]
  | cons c cs ih =>
    have hc : c ≠ '"' := hu c (by simp)
    have hb : (c != '"') = true := by simp [hc]
    have ih' := ih (fun x hx => hu x (by simp [hx]))
    simp [List.dropWhile, nq, hb, ih']

theorem closeLit_eq : closeLit = '"' :: " defer>".toList := by decide

/-- Shape characterization of a successful match: the text is exactly the
pattern occurrence (with a nonempty, quote-free URL) followed by the rest. -/
theorem matchAt_some_iff {cs url rest : List Char} :
    matchAt cs = some (url, rest) ↔
      url ≠ [] ∧ (∀ x ∈ url, x ≠ '"') ∧ cs = occ url ++ rest := by
  constructor
  · intro h
    unfold matchAt at h
    cases hd : dropLit scriptSrcLit cs with
    | none => rw [hd] at h; exact absurd h (by simp)
    | some r1 =>
      rw [hd] at h
      simp only at h
      by_cases he : r1.takeWhile nq = []
      · rw [if_pos he] at h; exact absurd h (by simp)
      · rw [if_neg he] at h
        cases hd2 : dropLit closeLit (r1.dropWhile nq) with
        | none => rw [hd2] at h; exact absurd h (by simp)
        | some r3 =>
          rw [hd2] at h
          simp only [Option.some.injEq, Prod.mk.injEq] at h
          obtain ⟨hu, hr⟩ := h
          have h1 : cs = scriptSrcLit ++ r1 := (dropLit_some_iff _ _ _).1 hd
          have h2 : r1.dropWhile nq = closeLit ++ r3 :=
            (dropLit_some_iff _ _ _).1 hd2
          have h3 : r1 = r1.takeWhile nq ++ r1.dropWhile nq :=
            (List.takeWhile_append_dropWhile (p := nq) (l := r1)).symm
          refine ⟨?_, ?_, ?_⟩
          · rw [← hu]; exact he
          · rw [← hu]; exact mem_takeWhile_nq
          · rw [h1, occ, h3, h2, hu, hr]
            simp
  · rintro ⟨hne, hq, hcs⟩
    have h1 : dropLit scriptSrcLit cs = some (url ++ closeLit ++ rest) := by
      rw [dropLit_some_iff, hcs, occ]
      simp
    have hsplit : url ++ closeLit ++ rest = url ++ '"' :: (" defer>".toList ++ rest) := by
      rw [closeLit_eq]; simp
    unfold matchAt
    rw [h1]
    simp only
    rw [hsplit, takeWhile_eq_self_of_nq hq, dropWhile_eq_of_nq hq]
    rw [if_neg hne]
    have h2 : dropLit closeLit ('"' :: (" defer>".toList ++ rest)) = some rest := by
      rw [dropLit_some_iff, closeLit_eq]
      simp
    rw [h2]

theorem matchAt_length {cs url rest : List Char} (h : matchAt cs = some (url, rest)) :
    cs.length = 21 + url.length + rest.length := by
  obtain ⟨-, -, hcs⟩ := matchAt_some_iff.1 h
  rw [hcs, occ]
  have h13 : scriptSrcLit.length = 13 := by decide
  have h8 : closeLit.length = 8 := by decide
  simp [h13, h8]
  omega

theorem matchAt_none_of_head {c : Char} (hc : c ≠ '<') (cs : List Char) :
    matchAt (c :: cs) = none := by
  cases hm : matchAt (c :: cs) with
  | none => rfl
  | some p =>
    obtain ⟨url, rest⟩ := p
    obtain ⟨-, -, hcs⟩ := matchAt_some_iff.1 hm
    rw [occ] at hcs
    have : c = '<' := by
      have : (c :: cs).head? = ((scriptSrcLit ++ url ++ closeLit) ++ rest).head? := by
        rw [hcs]
      simpa [scriptSrcLit] using this
    exact absurd this hc

theorem matchAt_nil : matchAt [] = none := by decide

/-! Fuel independence and unfolding equations for the scans. -/

theorem reSubFuel_congr :
    ∀ n m cs, cs.length ≤ n → cs.length ≤ m → reSubFuel n cs = reSubFuel m cs := by
  intro n
  induction n with
  | zero =>
    intro m cs hn _
    have : cs = [] := List.eq_nil_of_length_eq_zero (Nat.le_zero.1 hn)
    subst this
    cases m <;> rfl
  | succ n ih =>
    intro m cs hn hm
    cases cs with
    | nil => cases m <;> rfl
    | cons c cs =>
      cases m with
      | zero => simp at hm
      | succ m =>
        cases hmt : matchAt (c :: cs) with
        | none =>
          simp only [reSubFuel, hmt]
          simp only [List.length_cons] at hn hm
          rw [ih m cs (by omega) (by omega)]
        | some p =>
          obtain ⟨url, rest⟩ := p
          simp only [reSubFuel, hmt]
          have hl := matchAt_length hmt
          simp only [List.length_cons] at hn hm hl
          rw [ih m rest (by omega) (by omega)]

theorem reSub_nil : reSub [] = [] := rfl

theorem reSub_cons_some {c : Char} {cs url rest : List Char}
    (h : matchAt (c :: cs) = some (url, rest)) :
    reSub (c :: cs) = repl url ++ reSub rest := by
  have hl := matchAt_length h
  simp only [List.length_cons] at hl
  unfold reSub
  simp only [List.length_cons, reSubFuel, h]
  rw [reSubFuel_congr cs.length rest.length rest (by omega) (by omega)]

theorem reSub_cons_none {c : Char} {cs : List Char}
    (h : matchAt (c :: cs) = none) :
    reSub (c :: cs) = c :: reSub cs := by
  unfold reSub
  simp only [List.length_cons, reSubFuel, h]

theorem matchCountFuel_congr :
    ∀ n m cs, cs.length ≤ n → cs.length ≤ m → matchCountFuel n cs = matchCountFuel m cs := by
  intro n
  induction n with
  | zero =>
    intro m cs hn _
    have : cs = [] := List.eq_nil_of_length_eq_zero (Nat.le_zero.1 hn)
    subst this
    cases m <;> rfl
  | succ n ih =>
    intro m cs hn hm
    cases cs with
    | nil => cases m <;> rfl
    | cons c cs =>
      cases m with
      | zero => simp at hm
      | succ m =>
        cases hmt : matchAt (c :: cs) with
        | none =>
          simp only [matchCountFuel, hmt]
          simp only [List.length_cons] at hn hm
          rw [ih m cs (by omega) (by omega)]
        | some p =>
          obtain ⟨url, rest⟩ := p
          simp only [matchCountFuel, hmt]
          have hl := matchAt_length hmt
          simp only [List.length_cons] at hn hm hl
          rw [ih m rest (by omega) (by omega)]

theorem matchCount_nil : matchCount [] = 0 := rfl

theorem matchCount_cons_some {c : Char} {cs url rest : List Char}
    (h : matchAt (c :: cs) = some (url, rest)) :
    matchCount (c :: cs) = matchCount rest + 1 := by
  have hl := matchAt_length h
  simp only [List.length_cons] at hl
  unfold matchCount
  simp only [List.length_cons, matchCountFuel, h]
  rw [matchCountFuel_congr cs.length rest.length rest (by omega) (by omega)]

theorem matchCount_cons_none {c : Char} {cs : List Char}
    (h : matchAt (c :: cs) = none) :
    matchCount (c :: cs) = matchCount cs := by
  unfold matchCount
  simp only [List.length_cons, matchCountFuel, h]

theorem urlsLtFreeFuel_congr :
    ∀ n m cs, cs.length ≤ n → cs.length ≤ m → urlsLtFreeFuel n cs = urlsLtFreeFuel m cs := by
  intro n
  induction n with
  | zero =>
    intro m cs hn _
    have : cs = [] := List.eq_nil_of_length_eq_zero (Nat.le_zero.1 hn)
    subst this
    cases m <;> rfl
  | succ n ih =>
    intro m cs hn hm
    cases cs with
    | nil => cases m <;> rfl
    | cons c cs =>
      cases m with
      | zero => simp at hm
      | succ m =>
        cases hmt : matchAt (c :: cs) with
        | none =>
          simp only [urlsLtFreeFuel, hmt]
          simp only [List.length_cons] at hn hm
          rw [ih m cs (by omega) (by omega)]
        | some p =>
          obtain ⟨url, rest⟩ := p
          simp only [urlsLtFreeFuel, hmt]
          have hl := matchAt_length hmt
          simp only [List.length_cons] at hn hm hl
          rw [ih m rest (by omega) (by omega)]

theorem urlsLtFree_cons_some {c : Char} {cs url rest : List Char}
    (h : matchAt (c :: cs) = some (url, rest)) :
    urlsLtFree (c :: cs) = (url.all (fun x => x != '<') && urlsLtFree rest) := by
  have hl := matchAt_length h
  simp only [List.length_cons] at hl
  unfold urlsLtFree
  simp only [List.length_cons, urlsLtFreeFuel, h]
  rw [urlsLtFreeFuel_congr cs.length rest.length rest (by omega) (by omega)]

theorem urlsLtFree_cons_none {c : Char} {cs : List Char}
    (h : matchAt (c :: cs) = none) :
    urlsLtFree (c :: cs) = urlsLtFree cs := by
  unfold urlsLtFree
  simp only [List.length_cons, urlsLtFreeFuel, h]

theorem reSub_eq_some {cs url rest : List Char} (h : matchAt cs = some (url, rest)) :
    reSub cs = repl url ++ reSub rest := by
  cases cs with
  | nil => rw [matchAt_nil] at h; exact absurd h (by simp)
  | cons c cs => exact reSub_cons_some h

theorem matchCount_eq_some {cs url rest : List Char} (h : matchAt cs = some (url, rest)) :
    matchCount cs = matchCount rest + 1 := by
  cases cs with
  | nil => rw [matchAt_nil] at h; exact absurd h (by simp)
  | cons c cs => exact matchCount_cons_some h

theorem urlsLtFree_eq_some {cs url rest : List Char} (h : matchAt cs = some (url, rest)) :
    urlsLtFree cs = (url.all (fun x => x != '<') && urlsLtFree rest) := by
  cases cs with
  | nil => rw [matchAt_nil] at h; exact absurd h (by simp)
  | cons c cs => exact urlsLtFree_cons_some h

/-- Scanning an initial segment in which no position matches copies that
segment verbatim. -/
theorem reSub_append_of_none :
    ∀ s t : List Char, (∀ i < s.length, matchAt ((s ++ t).drop i) = none) →
      reSub (s ++ t) = s ++ reSub t := by
  intro s
  induction s with
  | nil => intro t _; simp
  | cons c s ih =>
    intro t h
    have h0 : matchAt (c :: (s ++ t)) = none := by
      have := h 0 (by simp)
      simpa using this
    have hrec : ∀ i < s.length, matchAt ((s ++ t).drop i) = none := by
      intro i hi
      have := h (i + 1) (by simpa using Nat.succ_lt_succ hi)
      simpa [List.drop_succ_cons] using this
    rw [List.cons_append, reSub_cons_none h0, ih t hrec]
    simp

/-- Content with no match at any position is returned byte-for-byte
unchanged by the substitution. -/
theorem reSub_id_of_none {cs : List Char}
    (h : ∀ i, matchAt (cs.drop i) = none) : reSub cs = cs := by
  have := reSub_append_of_none cs [] (fun i _ => by simpa using h i)
  simpa [reSub_nil] using this

/-- Either no position of cs matches, or cs splits as an unmatched segment,
a first occurrence, and a remainder, and the scan functions decompose
accordingly. -/
theorem first_split :
    ∀ cs : List Char, (∀ i, matchAt (cs.drop i) = none) ∨
      ∃ pre url rest, url ≠ [] ∧ (∀ x ∈ url, x ≠ '"') ∧
        cs = pre ++ occ url ++ rest ∧
        (∀ i < pre.length, matchAt (cs.drop i) = none) ∧
        reSub cs = pre ++ repl url ++ reSub rest ∧
        urlsLtFree cs = (url.all (fun x => x != '<') && urlsLtFree rest) := by
  intro cs
  induction cs with
  | nil => left; intro i; simp [matchAt_nil]
  | cons c cs ih =>
    cases hm : matchAt (c :: cs) with
    | some p =>
      obtain ⟨url, rest⟩ := p
      obtain ⟨hne, hq, heq⟩ := matchAt_some_iff.1 hm
      right
      exact ⟨[], url, rest, hne, hq, by simpa using heq, by simp,
        by simpa using reSub_cons_some hm, by simpa using urlsLtFree_cons_some hm⟩
    | none =>
      rcases ih with hno | ⟨pre, url, rest, hne, hq, heq, hb, hs, hu⟩
      · left
        intro i
        cases i with
        | zero => simpa using hm
        | succ j => simpa [List.drop_succ_cons] using hno j
      · right
        refine ⟨c :: pre, url, rest, hne, hq, by simp [heq], ?_, ?_, ?_⟩
        · intro i hi
          cases i with
          | zero => simpa using hm
          | succ j =>
            have hj : j < pre.length := by simpa using hi
            simpa [List.drop_succ_cons] using hb j hj
        · rw [reSub_cons_none hm, hs]
          simp
        · rw [urlsLtFree_cons_none hm, hu]

/-! Length accounting: each replacement inserts exactly the 14 characters of
`type="module" `. -/

theorem repl_length (url : List Char) : (repl url).length = 35 + url.length := by
  have h27 : modLit.length = 27 := by decide
  have h8 : closeLit.length = 8 := by decide
  simp [repl, h27, h8]
  omega

theorem reSub_length_aux :
    ∀ n cs, cs.length ≤ n → (reSub cs).length = cs.length + 14 * matchCount cs := by
  intro n
  induction n with
  | zero =>
    intro cs hn
    have : cs = [] := List.length_eq_zero.1 (Nat.le_zero.1 hn)
    subst this
    simp [reSub_nil, matchCount_nil]
  | succ n ih =>
    intro cs hn
    cases cs with
    | nil => simp [reSub_nil, matchCount_nil]
    | cons c cs =>
      cases hm : matchAt (c :: cs) with
      | none =>
        rw [reSub_cons_none hm, matchCount_cons_none hm]
        simp only [List.length_cons] at hn ⊢
        rw [ih cs (by omega)]
        omega
      | some p =>
        obtain ⟨url, rest⟩ := p
        have hl := matchAt_length hm
        simp only [List.length_cons] at hn hl
        rw [reSub_cons_some hm, matchCount_cons_some hm]
        simp only [List.length_append, List.length_cons, repl_length]
        rw [ih rest (by omega)]
        omega

theorem reSub_length (cs : List Char) :
    (reSub cs).length = cs.length + 14 * matchCount cs :=
  reSub_length_aux cs.length cs (Nat.le_refl _)

/-- The scan replaces at least one occurrence exactly when some position of
the content matches the pattern. -/
theorem matchCount_pos_iff :
    ∀ cs : List Char, 0 < matchCount cs ↔ ∃ i, (matchAt (cs.drop i)).isSome := by
  intro cs
  induction cs with
  | nil =>
    simp [matchCount_nil, matchAt_nil]
  | cons c cs ih =>
    cases hm : matchAt (c :: cs) with
    | some p =>
      obtain ⟨url, rest⟩ := p
      rw [matchCount_cons_some hm]
      simp only [Nat.succ_pos, true_iff]
      exact ⟨0, by simp [hm]⟩
    | none =>
      rw [matchCount_cons_none hm]
      rw [ih]
      constructor
      · rintro ⟨i, hi⟩
        exact ⟨i + 1, by simpa [List.drop_succ_cons] using hi⟩
      · rintro ⟨i, hi⟩
        cases i with
        | zero => simp [hm] at hi
        | succ j => exact ⟨j, by simpa [List.drop_succ_cons] using hi⟩

/-! Idempotence analysis.  The rewritten text can in general recombine with
surrounding text into a new occurrence (see the counterexample below), but it
cannot when no captured URL contains `<`.  The lemmas here establish that. -/

/-- modA is the quote-free part of `modLit` before its first quote. -/
def modA : List Char := "<script type=".toList

/-- modRest is the part of `modLit` after its first quote. -/
def modRest : List Char := "module\" src=\"".toList

/-- dtail is the part of `closeLit` after its leading quote. -/
def dtail : List Char := " defer>".toList

/-- mtail is `modLit` without its leading angle bracket. -/
def mtail : List Char := "script type=\"module\" src=\"".toList

theorem modLit_eq : modLit = modA ++ '"' :: modRest := by decide

theorem closeLit_eq_dtail : closeLit = '"' :: dtail := by decide

theorem modLit_cons : modLit = '<' :: mtail := by decide

theorem append_get_ne {a b : List Char} (i : Nat) (X Y : List Char)
    (hia : i < a.length) (hib : i < b.length) (hne : a[i]? ≠ b[i]?) :
    a ++ X ≠ b ++ Y := by
  intro h
  apply hne
  rw [← List.getElem?_append_left hia, h, List.getElem?_append_left hib]

/-- Splitting at the first quote is unambiguous. -/
theorem qf_split {a b c d : List Char} (ha : ∀ x ∈ a, x ≠ '"')
    (hc : ∀ x ∈ c, x ≠ '"') (h : a ++ '"' :: b = c ++ '"' :: d) :
    a = c ∧ b = d := by
  induction a generalizing c with
  | nil =>
    cases c with
    | nil => simpa using h
    | cons y c =>
      exfalso
      have hy : y = '"' := by
        have := congrArg List.head? h
        simpa using this.symm
      exact hc y (by simp) hy
  | cons x a ih =>
    cases c with
    | nil =>
      exfalso
      have hx : x = '"' := by
        have := congrArg List.head? h
        simpa using this
      exact ha x (by simp) hx
    | cons y c =>
      simp only [List.cons_append, List.cons.injEq] at h
      obtain ⟨hxy, h2⟩ := h
      obtain ⟨h3, h4⟩ :=
        ih (fun z hz => ha z (by simp [hz])) (fun z hz => hc z (by simp [hz])) h2
      exact ⟨by rw [hxy, h3], h4⟩

/-- Every string is quote-free or splits at its first quote. -/
theorem split_at_quote (t : List Char) :
    (∀ x ∈ t, x ≠ '"') ∨ ∃ a b, t = a ++ '"' :: b ∧ ∀ x ∈ a, x ≠ '"' := by
  induction t with
  | nil => left; simp
  | cons c t ih =>
    by_cases hc : c = '"'
    · right; exact ⟨[], t, by simp [hc], by simp⟩
    · rcases ih with h | ⟨a, b, hab, ha⟩
      · left
        intro x hx
        rcases List.mem_cons.1 hx with h1 | h1
        · rw [h1]; exact hc
        · exact h x h1
      · right
        refine ⟨c :: a, b, by simp [hab], ?_⟩
        intro x hx
        rcases List.mem_cons.1 hx with h1 | h1
        · rw [h1]; exact hc
        · exact ha x h1

/-- A replacement never begins a match, whatever follows it: the pattern
requires `src` where the replacement has `type`. -/
theorem matchAt_repl_append_none (url t : List Char) :
    matchAt (repl url ++ t) = none := by
  cases hm : matchAt (repl url ++ t) with
  | none => rfl
  | some p =>
    exfalso
    obtain ⟨u2, r'⟩ := p
    obtain ⟨-, -, heq⟩ := matchAt_some_iff.1 hm
    have heq' : modLit ++ (url ++ (closeLit ++ t)) =
        scriptSrcLit ++ (u2 ++ (closeLit ++ r')) := by
      simpa [repl, occ, List.append_assoc] using heq
    exact absurd heq' (append_get_ne 8 _ _ (by decide) (by decide) (by decide))

theorem mem_repl_tail_ne_lt {url : List Char} (hlt : ∀ x ∈ url, x ≠ '<') :
    ∀ x ∈ (repl url).drop 1, x ≠ '<' := by
  intro x hx hxe
  subst hxe
  rw [repl, modLit_cons] at hx
  simp only [List.cons_append, List.drop_succ_cons, List.drop_zero,
    List.mem_append] at hx
  rcases hx with (h | h) | h
  · exact absurd h (by decide)
  · exact hlt '<' h rfl
  · exact absurd h (by decide)

/-- The scan passes over a whole replacement whose URL is `<`-free, whatever
follows it. -/
theorem reSub_repl_append {url : List Char} (hlt : ∀ x ∈ url, x ≠ '<')
    (t : List Char) : reSub (repl url ++ t) = repl url ++ reSub t := by
  apply reSub_append_of_none
  intro i hi
  cases i with
  | zero => simpa using matchAt_repl_append_none url t
  | succ j =>
    rw [List.drop_append_of_le_length (Nat.le_of_lt hi)]
    cases hd : (repl url).drop (j + 1) with
    | nil =>
      exfalso
      have := congrArg List.length hd
      simp [List.length_drop] at this
      omega
    | cons d ds =>
      apply matchAt_none_of_head
      have hdm : d ∈ (repl url).drop (j + 1) := by rw [hd]; simp
      have hdm1 : d ∈ ((repl url).drop 1).drop j := by
        rw [List.drop_drop]
        simpa [Nat.add_comm] using hdm
      exact mem_repl_tail_ne_lt hlt d (List.drop_subset _ _ hdm1)

/-- Key stability lemma: a position strictly before a pattern occurrence that
did not match keeps not matching after the occurrence is rewritten, whatever
follows either form. -/
theorem crux {pre url r1 r2 : List Char} (hpre : pre ≠ [])
    (h1 : matchAt (pre ++ (occ url ++ r1)) = none) :
    matchAt (pre ++ (repl url ++ r2)) = none := by
  cases hm : matchAt (pre ++ (repl url ++ r2)) with
  | none => rfl
  | some p =>
    exfalso
    obtain ⟨u2, r'⟩ := p
    obtain ⟨hne2, hq2, heq⟩ := matchAt_some_iff.1 hm
    have heq' : pre ++ (modLit ++ (url ++ (closeLit ++ r2))) =
        scriptSrcLit ++ (u2 ++ (closeLit ++ r')) := by
      simpa [repl, occ, List.append_assoc] using heq
    rcases List.append_eq_append_iff.1 heq' with ⟨t, hSS, hA⟩ | ⟨t, hpre2, hB⟩
    · cases t with
      | nil =>
        have hA' : modA ++ '"' :: (modRest ++ (url ++ (closeLit ++ r2))) =
            u2 ++ '"' :: (dtail ++ r') := by
          simpa [modLit_eq, closeLit_eq_dtail, List.append_assoc] using hA
        obtain ⟨-, h2⟩ := qf_split (by decide) hq2 hA'
        exact absurd h2 (append_get_ne 0 _ _ (by decide) (by decide) (by decide))
      | cons x t' =>
        have hx : x = '<' := by
          have := congrArg List.head? hA
          simpa [modLit_cons] using this.symm
        obtain ⟨p0, pre0, rfl⟩ : ∃ p0 pre0, pre = p0 :: pre0 := by
          cases pre with
          | nil => exact absurd rfl hpre
          | cons p0 pre0 => exact ⟨p0, pre0, rfl⟩
        have htl : scriptSrcLit.tail = pre0 ++ x :: t' := by
          have := congrArg List.tail hSS
          simpa using this
        have hmem : '<' ∈ scriptSrcLit.tail := by
          rw [htl, ← hx]
          exact List.mem_append_right _ (List.mem_cons_self _ _)
        exact absurd hmem (by decide)
    · rcases split_at_quote t with hqf | ⟨a, b, rfl, haqf⟩
      · have hB' : (t ++ modA) ++ '"' :: (modRest ++ (url ++ (closeLit ++ r2))) =
            u2 ++ '"' :: (dtail ++ r') := by
          simpa [modLit_eq, closeLit_eq_dtail, List.append_assoc] using hB.symm
        have hqa : ∀ x ∈ t ++ modA, x ≠ '"' := by
          intro x hx hxe
          subst hxe
          rcases List.mem_append.1 hx with h | h
          · exact hqf '"' h rfl
          · exact absurd h (by decide)
        obtain ⟨-, h2⟩ := qf_split hqa hq2 hB'
        exact absurd h2 (append_get_ne 0 _ _ (by decide) (by decide) (by decide))
      · have hB' : a ++ '"' :: (b ++ (modLit ++ (url ++ (closeLit ++ r2)))) =
            u2 ++ '"' :: (dtail ++ r') := by
          simpa [closeLit_eq_dtail, List.append_assoc] using hB.symm
        obtain ⟨hau, h2⟩ := qf_split haqf hq2 hB'
        rcases List.append_eq_append_iff.1 h2 with ⟨w, hdt, hw⟩ | ⟨w, hbw, hw⟩
        · cases w with
          | nil =>
            rw [List.append_nil] at hdt
            have hsome : matchAt (pre ++ (occ url ++ r1)) =
                some (a, occ url ++ r1) := by
              refine matchAt_some_iff.2 ⟨by rw [hau]; exact hne2, haqf, ?_⟩
              rw [hpre2, ← hdt]
              simp [occ, closeLit_eq_dtail, List.append_assoc]
            rw [h1] at hsome
            exact absurd hsome (by simp)
          | cons y w' =>
            have hy : y = '<' := by
              have := congrArg List.head? hw
              simpa [modLit_cons] using this.symm
            have hmem : '<' ∈ dtail := by
              rw [hdt, ← hy]
              exact List.mem_append_right _ (List.mem_cons_self _ _)
            exact absurd hmem (by decide)
        · have hsome : matchAt (pre ++ (occ url ++ r1)) =
              some (a, w ++ (occ url ++ r1)) := by
            refine matchAt_some_iff.2 ⟨by rw [hau]; exact hne2, haqf, ?_⟩
            rw [hpre2, hbw]
            simp [occ, closeLit_eq_dtail, List.append_assoc]
          rw [h1] at hsome
          exact absurd hsome (by simp)

theorem occ_length (url : List Char) : (occ url).length = 21 + url.length := by
  have h13 : scriptSrcLit.length = 13 := by decide
  have h8 : closeLit.length = 8 := by decide
  simp [occ, h13, h8]
  omega

/-- When no captured URL contains `<`, a second application of the
substitution changes nothing. -/
theorem reSub_idem_aux :
    ∀ n cs, cs.length ≤ n → urlsLtFree cs = true → reSub (reSub cs) = reSub cs := by
  intro n
  induction n with
  | zero =>
    intro cs hn _
    have : cs = [] := List.length_eq_zero.1 (Nat.le_zero.1 hn)
    subst this
    simp [reSub_nil]
  | succ n ih =>
    intro cs hn hfree
    rcases first_split cs with hno | ⟨pre, url, rest, hne, hq, heq, hb, hs, hu⟩
    · rw [reSub_id_of_none hno, reSub_id_of_none hno]
    · have hx : (url.all (fun x => x != '<') && urlsLtFree rest) = true := by
        rw [← hu, hfree]
      rw [Bool.and_eq_true] at hx
      obtain ⟨hall, hrest⟩ := hx
      have hlt : ∀ x ∈ url, x ≠ '<' := by
        intro x hxm
        have := List.all_eq_true.1 hall x hxm
        simpa using this
      have hlen : rest.length ≤ n := by
        have hle := congrArg List.length heq
        simp [List.length_append, occ_length] at hle
        omega
      rw [hs, List.append_assoc]
      have hstep : ∀ i < pre.length,
          matchAt ((pre ++ (repl url ++ reSub rest)).drop i) = none := by
        intro i hi
        rw [List.drop_append_of_le_length (Nat.le_of_lt hi)]
        have hpd : pre.drop i ≠ [] := by
          intro hnil
          have := congrArg List.length hnil
          simp [List.length_drop] at this
          omega
        have hcs : cs.drop i = pre.drop i ++ (occ url ++ rest) := by
          rw [heq, List.append_assoc, List.drop_append_of_le_length (Nat.le_of_lt hi)]
        have hmn : matchAt (pre.drop i ++ (occ url ++ rest)) = none := by
          rw [← hcs]
          exact hb i hi
        exact crux hpd hmn
      rw [reSub_append_of_none _ _ hstep, reSub_repl_append hlt,
        ih rest hlen hrest]

/-! Model of the `main` driver.

The filesystem is modelled as a list of existing directory paths and a list
of file entries, each holding its containing directory path, its base name,
and its textual content.  `os.walk rootDir` visits exactly the entries whose
directory is the root itself or lies below it (directory paths joined with a
slash), in the list order; `main` patches every visited file whose name ends
in `.html` and counts the changed ones. -/

structure FileEnt where
  dir : String
  name : String
  content : String
deriving DecidableEq

structure FS where
  dirs : List String
  files : List FileEnt
deriving DecidableEq

structure RunResult where
  files : List FileEnt
  exitCode : Nat
  stdoutLines : List String
  stderrLines : List String
deriving DecidableEq

/-- distDirOf argv is `sys.argv[1] if len(sys.argv) > 1 else "dist"` (the
head of argv is the program name). -/
def distDirOf (argv : List String) : String :=
  match argv.drop 1 with
  | [] => "dist"
  | d :: _ => d

/-- isUnder root dir holds when `os.walk root` visits directory dir: dir is
the root itself or lies below it. -/
def isUnder (root dir : String) : Bool :=
  dir == root || (root ++ "/").toList.isPrefixOf dir.toList

/-- hasHtmlSuffix name is Python `name.endswith(".html")`. -/
def hasHtmlSuffix (name : String) : Bool :=
  ".html".toList.isSuffixOf name.toList

/-- squote is the ASCII apostrophe character used by the diagnostic. -/
def squote : String := String.singleton (Char.ofNat 39)

/-- notFoundMsg d is the diagnostic printed to the error stream when the
root directory is missing. -/
def notFoundMsg (d : String) : String :=
  "Error: directory " ++ squote ++ d ++ squote ++ " not found"

/-- fixedMsg n d is the summary line printed to standard output on
success. -/
def fixedMsg (n : Nat) (d : String) : String :=
  "Fixed " ++ toString n ++ " HTML files in " ++ d

/-- runFiles d es is the nested walk loop of `main`: every visited file
whose name ends in `.html` is rewritten through `fix_html`, and the files
for which `fix_html` reports a change are counted. -/
def runFiles (d : String) : List FileEnt → List FileEnt × Nat
  | [] => ([], 0)
  | e :: es =>
    let rest := runFiles d es
    if isUnder d e.dir && hasHtmlSuffix e.name then
      let r := fix_html e.content
      (⟨e.dir, e.name, r.1⟩ :: rest.1, (if r.2 then 1 else 0) + rest.2)
    else
      (e :: rest.1, rest.2)

/-- main argv fs models one invocation of the script with argument vector
argv on filesystem fs: it validates the root directory, printing the
diagnostic and exiting 1 when it is missing; on success it patches the tree
and prints the summary line, exiting 0. -/
def main (argv : List String) (fs : FS) : RunResult :=
  let d := distDirOf argv
  if fs.dirs.contains d then
    let r := runFiles d fs.files
    ⟨r.1, 0, [fixedMsg r.2 d], []⟩
  else
    ⟨fs.files, 1, [], [notFoundMsg d]⟩

theorem runFiles_fst (d : String) (es : List FileEnt) :
    (runFiles d es).1 = es.map (fun e =>
      if isUnder d e.dir && hasHtmlSuffix e.name
      then ⟨e.dir, e.name, (fix_html e.content).1⟩ else e) := by
  induction es with
  | nil => rfl
  | cons e es ih =>
    simp only [runFiles, List.map_cons]
    by_cases h : (isUnder d e.dir && hasHtmlSuffix e.name) = true
    · simp [h, ih]
    · simp only [Bool.not_eq_true] at h
      simp [h, ih]

theorem runFiles_snd (d : String) (es : List FileEnt) :
    (runFiles d es).2 = (es.filter (fun e =>
      isUnder d e.dir && hasHtmlSuffix e.name && (fix_html e.content).2)).length := by
  induction es with
  | nil => rfl
  | cons e es ih =>
    simp only [runFiles, List.filter]
    by_cases h : (isUnder d e.dir && hasHtmlSuffix e.name) = true
    · by_cases hc : (fix_html e.content).2 = true
      · simp [h, hc, ih, Nat.add_comm]
      · simp only [Bool.not_eq_true] at hc
        simp [h, hc, ih]
    · simp only [Bool.not_eq_true] at h
      simp [h, ih]

/-! Claim theorems. -/

/-- Claim C1: the patch transformation leaves content with no occurrence of
the pattern byte-for-byte unchanged, and rewrites a leftmost occurrence
`<script src="URL" defer>` to `<script type="module" src="URL" defer>` with
the captured URL unchanged, the text before it copied verbatim and the scan
continuing after it, so every occurrence is replaced. -/
theorem reSub_replaces_every_occurrence :
    (∀ cs : List Char, (∀ i, matchAt (cs.drop i) = none) → reSub cs = cs) ∧
    (∀ pre url suf : List Char, url ≠ [] → (∀ x ∈ url, x ≠ '"') →
      (∀ i < pre.length, matchAt ((pre ++ (occ url ++ suf)).drop i) = none) →
      reSub (pre ++ (occ url ++ suf)) = pre ++ (repl url ++ reSub suf)) := by
  constructor
  · exact fun cs h => reSub_id_of_none h
  · intro pre url suf hne hq hb
    rw [reSub_append_of_none _ _ hb]
    congr 1
    exact reSub_eq_some (matchAt_some_iff.2 ⟨hne, hq, by simp [List.append_assoc]⟩)

theorem reSub_replaces_every_occurrence_witness :
    reSub ("<p><script src=\"/app.js\" defer><p>".toList) =
      "<p><script type=\"module\" src=\"/app.js\" defer><p>".toList := by
  have h := reSub_replaces_every_occurrence.2 "<p>".toList "/app.js".toList
    "<p>".toList (by decide) (by decide) (by decide)
  have h2 : "<p><script src=\"/app.js\" defer><p>".toList =
      "<p>".toList ++ (occ "/app.js".toList ++ "<p>".toList) := by decide
  rw [h2, h]
  decide

/-- exFS is a sample export tree used by the driver witnesses: one HTML file
with a matching tag and one JavaScript asset below the root. -/
def exFS : FS :=
  ⟨["dist"], [⟨"dist", "index.html", "<script src=\"/app.js\" defer>"⟩,
    ⟨"dist/js", "app.js", "console.log(1)"⟩]⟩

/-- Claim C2: when the root path does not reference an existing directory,
`main` prints the not-found diagnostic naming the quoted root directory to
the error stream,
exits with code 1, prints nothing to standard output and modifies no
files. -/
theorem main_missing_root (argv : List String) (fs : FS)
    (h : fs.dirs.contains (distDirOf argv) = false) :
    (main argv fs).files = fs.files ∧ (main argv fs).exitCode = 1 ∧
      (main argv fs).stderrLines = [notFoundMsg (distDirOf argv)] ∧
      (main argv fs).stdoutLines = [] := by
  have hmem : ¬ distDirOf argv ∈ fs.dirs := by simpa using h
  simp [main, hmem]

theorem main_missing_root_witness :
    (main ["prog", "missing"] exFS).files = exFS.files ∧
      (main ["prog", "missing"] exFS).exitCode = 1 ∧
      (main ["prog", "missing"] exFS).stderrLines = [notFoundMsg "missing"] := by
  have h := main_missing_root ["prog", "missing"] exFS (by decide)
  exact ⟨h.1, h.2.1, h.2.2.1⟩

/-- Claim C3 counterexample: the patch transformation is not idempotent: on
this input the captured URL ends in `<script src=` and the rewritten text
recombines with the following text into a fresh occurrence, so a second
application rewrites again. -/
theorem reSub_not_idempotent :
    reSub (reSub "<script src=\"X<script src=\" defer>Z\" defer>".toList) ≠
      reSub "<script src=\"X<script src=\" defer>Z\" defer>".toList := by
  decide

/-- Claim C3 (amended): the patch transformation is idempotent on every
content in which no captured URL contains the character `<`: for such
content a rewritten tag cannot recombine with surrounding text into a new
occurrence, so applying the patch twice yields the result of applying it
once. -/
theorem reSub_idempotent_of_urlsLtFree (cs : List Char)
    (h : urlsLtFree cs = true) : reSub (reSub cs) = reSub cs :=
  reSub_idem_aux cs.length cs (Nat.le_refl _) h

theorem reSub_idempotent_of_urlsLtFree_witness :
    urlsLtFree "a<script src=\"/x.js\" defer>b".toList = true ∧
      reSub (reSub "a<script src=\"/x.js\" defer>b".toList) =
        reSub "a<script src=\"/x.js\" defer>b".toList :=
  ⟨by decide, reSub_idempotent_of_urlsLtFree _ (by decide)⟩

/-- Claim C4: `fix_html` reports a change exactly when some position of the
content matches the pattern, and content in which no position matches is
returned unchanged (that all matches are replaced in the single pass is the
subject of C1). -/
theorem fix_html_changed_iff (content : String) :
    ((fix_html content).2 = true ↔
        ∃ i, (matchAt (content.toList.drop i)).isSome) ∧
      ((∀ i < content.toList.length, matchAt (content.toList.drop i) = none) →
        (fix_html content).1 = content) := by
  constructor
  · constructor
    · intro hch
      by_contra hex
      have hno : ∀ i, matchAt (content.toList.drop i) = none := by
        intro i
        cases hm : matchAt (content.toList.drop i) with
        | none => rfl
        | some p => exact absurd ⟨i, by rw [hm]; rfl⟩ hex
      have hid : reSub content.toList = content.toList := reSub_id_of_none hno
      have heq : String.mk (reSub content.toList) = content := by
        rw [hid]; exact rfl
      unfold fix_html at hch
      rw [if_pos heq] at hch
      simp at hch
    · intro hex
      have hcount : 0 < matchCount content.toList :=
        (matchCount_pos_iff _).2 hex
      have hlen := reSub_length content.toList
      have hne : String.mk (reSub content.toList) ≠ content := by
        intro he
        have hdata : reSub content.toList = content.toList :=
          congrArg String.toList he
        have := congrArg List.length hdata
        rw [hlen] at this
        omega
      unfold fix_html
      rw [if_neg hne]
  · intro h
    have hno : ∀ i, matchAt (content.toList.drop i) = none := by
      intro i
      by_cases hi : i < content.toList.length
      · exact h i hi
      · rw [List.drop_eq_nil_of_le (Nat.le_of_not_lt hi), matchAt_nil]
    have hid : reSub content.toList = content.toList := reSub_id_of_none hno
    have heq : String.mk (reSub content.toList) = content := by
      rw [hid]; exact rfl
    unfold fix_html
    rw [if_pos heq]

theorem fix_html_changed_iff_witness :
    (fix_html "<script src=\"/a.js\" defer>").2 = true ∧
      (fix_html "<p>hello</p>").1 = "<p>hello</p>" :=
  ⟨(fix_html_changed_iff "<script src=\"/a.js\" defer>").1.mpr ⟨0, by decide⟩,
    (fix_html_changed_iff "<p>hello</p>").2 (by decide)⟩

/-- Claim C5: on a successful run `main` prints exactly the one line
`Fixed <count> HTML files in <rootDir>` to standard output, where count is
the number of walked `.html` files whose patch reported a change, and exits
with code 0 (also when that count is zero). -/
theorem main_success_output (argv : List String) (fs : FS)
    (h : fs.dirs.contains (distDirOf argv) = true) :
    (main argv fs).exitCode = 0 ∧
      (main argv fs).stdoutLines =
        [fixedMsg ((fs.files.filter (fun e =>
          isUnder (distDirOf argv) e.dir && hasHtmlSuffix e.name &&
            (fix_html e.content).2)).length) (distDirOf argv)] ∧
      (main argv fs).stderrLines = [] := by
  have hmem : distDirOf argv ∈ fs.dirs := by simpa using h
  refine ⟨by simp [main, hmem], ?_, by simp [main, hmem]⟩
  simp [main, hmem, runFiles_snd]

theorem main_success_output_witness :
    (main ["prog"] exFS).exitCode = 0 ∧
      (main ["prog"] exFS).stdoutLines = [fixedMsg 1 "dist"] := by
  have h := main_success_output ["prog"] exFS (by decide)
  refine ⟨h.1, ?_⟩
  have hc : ((exFS.files.filter (fun e =>
      isUnder (distDirOf ["prog"]) e.dir && hasHtmlSuffix e.name &&
        (fix_html e.content).2)).length) = 1 := by decide
  rw [h.2.1, hc]
  rfl

/-- Claim C6: during a successful run the transform is applied to exactly
the walked files whose names end in the literal suffix `.html`: each such
entry is rewritten with the patch output and every other file entry is left
byte-for-byte unchanged. -/
theorem main_patches_exactly_html (argv : List String) (fs : FS)
    (h : fs.dirs.contains (distDirOf argv) = true) :
    (main argv fs).files = fs.files.map (fun e =>
      if isUnder (distDirOf argv) e.dir && hasHtmlSuffix e.name
      then ⟨e.dir, e.name, (fix_html e.content).1⟩ else e) := by
  have hmem : distDirOf argv ∈ fs.dirs := by simpa using h
  simp [main, hmem, runFiles_fst]

theorem main_patches_exactly_html_witness :
    (main ["prog"] exFS).files =
      [⟨"dist", "index.html", "<script type=\"module\" src=\"/app.js\" defer>"⟩,
        ⟨"dist/js", "app.js", "console.log(1)"⟩] := by
  rw [main_patches_exactly_html ["prog"] exFS (by decide)]
  decide

/-- Claim C7: with no positional argument the root directory used is the
literal string `dist`, and the run equals a run invoked with the explicit
argument `dist`. -/
theorem main_default_root (prog : String) (fs : FS) :
    distDirOf [prog] = "dist" ∧ main [prog] fs = main [prog, "dist"] fs :=
  ⟨rfl, rfl⟩

/-- Claim C8: the patch transformation is deterministic: two runs on equal
input content produce equal output content and equal changed flags. -/
theorem fix_html_deterministic (c1 c2 : String) (h : c1 = c2) :
    (fix_html c1).1 = (fix_html c2).1 ∧ (fix_html c1).2 = (fix_html c2).2 :=
  ⟨by rw [h], by rw [h]⟩

theorem fix_html_deterministic_witness :
    (fix_html "<p>").1 = (fix_html "<p>").1 ∧
      (fix_html "<p>").2 = (fix_html "<p>").2 :=
  fix_html_deterministic "<p>" "<p>" rfl

/-- Claim C9: the patched output length equals the input length plus exactly
14 characters (the inserted `type="module" `) per replaced occurrence; in
particular the output is never shorter than the input. -/
theorem reSub_length_formula (cs : List Char) :
    (reSub cs).length = cs.length + 14 * matchCount cs ∧
      cs.length ≤ (reSub cs).length := by
  have h := reSub_length cs
  exact ⟨h, by omega⟩

/-- Claim C10: command-line arguments beyond the first positional one are
silently ignored: the run with extra arguments equals the run with only the
first, which is taken as the root directory. -/
theorem main_ignores_extra_args (prog a : String) (rest : List String)
    (fs : FS) : main (prog :: a :: rest) fs = main [prog, a] fs := rfl

end FixWebExport

